import Mathlib

/-!
Verification development for the D.A.V.E bar-chart-race animation scripts.

The two source files are embedded shallowly:

* `barplot.py` — the animation engine: `lerp` / `slerp`, the `Keyframe`
  record, the `ColorTracker` colour-allocation state machine, the ranking
  step (`sorted(keyframes, reverse=True)` followed by `y_position := index`),
  the per-frame interpolation loop and the dense-frame sequencer, and the
  metadata line parse (`int(file_metadata[0])`, `int(file_metadata[1])`).
* `gather_member_keyframes.py` — the acquisition script: the cumulative
  `Counter`, the `tracked_users` watch-list fed from `c.most_common(top_users)`,
  and the CSV writer (`date,<names>` header, `date,<counts>` rows).

Numbers are embedded as `ℚ` (counts, fractions, positions) and `ℕ`
(tallies, colour tokens); Python dicts, which preserve insertion order, are
embedded as association lists; fallible code returns `Option`.
-/

/-- `lerp` from barplot.py: `a + (b - a) * t`. -/
def lerp {α : Type} [Add α] [Sub α] [Mul α] (a b t : α) : α := a + (b - a) * t

/-- `slerp` from barplot.py: `lerp a b (sin (radians (t * 90)))`,
with `math.radians deg = deg * π / 180`. -/
noncomputable def slerp (a b t : ℝ) : ℝ := lerp a b (Real.sin ((t * 90) * (Real.pi / 180)))

/-- The `Keyframe` record of barplot.py: a bar's name, message count,
assigned colour and vertical position.  The Python class initialises
`color`/`y_position` to `None` and fills them later; here the record carries
the filled values, colours being abstract tokens in `ℕ`. -/
structure Keyframe where
  name : String
  count : ℚ
  y_position : ℚ
  color : ℕ
deriving DecidableEq

/-- The comparison barplot.py installs on `Keyframe` (`__lt__` etc. compare
`count`), oriented for a descending sort: `a` may precede `b` iff
`b.count ≤ a.count`. -/
def kfRel (a b : Keyframe) : Prop := b.count ≤ a.count

instance : DecidableRel kfRel := fun a b => inferInstanceAs (Decidable (b.count ≤ a.count))

instance : IsTotal Keyframe kfRel := ⟨fun a b => le_total b.count a.count⟩

instance : IsTrans Keyframe kfRel := ⟨fun _ _ _ h1 h2 => le_trans h2 h1⟩

/-- `sorted(keyframes, reverse=True)` of barplot.py: Python's sort is
stable, and with `reverse=True` it orders by `count` descending while ties
keep their input order; `List.insertionSort kfRel` has exactly this
behaviour. -/
def sortKeyframes (l : List Keyframe) : List Keyframe := l.insertionSort kfRel

/-- Lines 208-210 of barplot.py: sort descending, then
`keyframes[i].y_position = i`. -/
def rankKeyframes (l : List Keyframe) : List Keyframe :=
  (sortKeyframes l).enum.map (fun p => { p.2 with y_position := (p.1 : ℚ) })

/-- Lookup in a `frame.keyframes` dict keyed by `Keyframe.name`
(`k in next_keyed_frame.keyframes` / `next_keyed_frame.keyframes[k]`). -/
def findByName (l : List Keyframe) (n : String) : Option Keyframe :=
  l.find? (fun kf => kf.name = n)

/-- The interpolation loop of barplot.py lines 233-244: iterate the previous
keyed frame's entries; entries whose name is missing from the next keyed
frame are skipped (`continue`); otherwise a fresh `Keyframe` is built with
the lerped count, the previous frame's `y_position` (the `slerp` call is
commented out in the source) and the previous frame's colour. -/
def interpFrame (prev next : List Keyframe) (t : ℚ) : List Keyframe :=
  prev.filterMap (fun kf =>
    match findByName next kf.name with
    | none => none
    | some nkf => some ⟨kf.name, lerp kf.count nkf.count t, kf.y_position, kf.color⟩)

/-- The dense-frame sequencer of barplot.py lines 221-244: one frame per
index `i < len(keyed) * frames_per_keyed_frame`, interpolating between
keyed frame `i / fpk` and keyed frame `i / fpk + 1`, the latter clamped to
`i / fpk` when it runs past the end, at fraction `(i % fpk) / fpk`. -/
def mkFrames (keyed : List (List Keyframe)) (fpk : ℕ) : List (List Keyframe) :=
  (List.range (keyed.length * fpk)).map (fun i =>
    interpFrame (keyed.getD (i / fpk) [])
      (if i / fpk + 1 < keyed.length then keyed.getD (i / fpk + 1) [] else keyed.getD (i / fpk) [])
      ((i % fpk : ℚ) / (fpk : ℚ)))

/-- First-match lookup in an insertion-ordered dict (`name in d` / `d[name]`). -/
def dlookup : List (String × ℕ) → String → Option ℕ
  | [], _ => none
  | (k, v) :: rest, n => if k = n then some v else dlookup rest n

/-- Removal of a key from an insertion-ordered dict (`d.pop(name)`). -/
def derase : List (String × ℕ) → String → List (String × ℕ)
  | [], _ => []
  | (k, v) :: rest, n => if k = n then rest else (k, v) :: derase rest n

/-- Assignment into an insertion-ordered dict (`d[name] = c`): replace in
place when the key is present, append otherwise. -/
def dset : List (String × ℕ) → String → ℕ → List (String × ℕ)
  | [], n, c => [(n, c)]
  | (k, v) :: rest, n, c => if k = n then (k, c) :: rest else (k, v) :: dset rest n c

/-- The `ColorTracker` state of barplot.py lines 63-75: the unclaimed
colours, the reservations of the previous and of the current frame (dicts
from name to colour), and the queue of entries waiting for a colour
(the queue keeps only the names; the colour an entry receives is recorded
in the reservation dicts). -/
structure ColorTracker where
  unreserved_colors : List ℕ
  reserved_colors_last_frame : List (String × ℕ)
  reserved_colors_this_frame : List (String × ℕ)
  data_points_awaiting_color : List String
deriving DecidableEq

/-- `ColorTracker.__init__`: all colours unclaimed, empty reservation dicts,
empty queue. -/
def mkColorTracker (colors : List ℕ) : ColorTracker := ⟨colors, [], [], []⟩

/-- `ColorTracker.get_color` (lines 77-84): if the name held a colour last
frame, move that reservation to this frame; otherwise append the entry to
the waiting queue. -/
def get_color (t : ColorTracker) (name : String) : ColorTracker :=
  match dlookup t.reserved_colors_last_frame name with
  | some col =>
    { t with
      reserved_colors_last_frame := derase t.reserved_colors_last_frame name,
      reserved_colors_this_frame := dset t.reserved_colors_this_frame name col }
  | none => { t with data_points_awaiting_color := t.data_points_awaiting_color ++ [name] }

/-- The assignment loop of `ColorTracker.finish_frame` (lines 93-96): each
waiting entry takes `unreserved_colors.pop(0)`; popping an empty list raises
`IndexError`, embedded as `none`. -/
def assignAwaiting : List ℕ → List (String × ℕ) → List String → Option (List ℕ × List (String × ℕ))
  | unres, d, [] => some (unres, d)
  | unres, d, n :: rest =>
    match unres with
    | [] => none
    | c :: cs => assignAwaiting cs (dset d n c) rest

/-- `ColorTracker.finish_frame` (lines 86-100): reclaim the colours still in
`reserved_colors_last_frame`, hand colours to the waiting queue in order,
then roll `this frame` over to `last frame`. -/
def finish_frame (t : ColorTracker) : Option ColorTracker :=
  match assignAwaiting (t.unreserved_colors ++ t.reserved_colors_last_frame.map Prod.snd)
      t.reserved_colors_this_frame t.data_points_awaiting_color with
  | none => none
  | some (unres2, this2) => some ⟨unres2, this2, [], []⟩

/-- One frame of the allocation cycle as driven by `main` (lines 203-205):
`get_color` for every entry, then one `finish_frame`. -/
def runFrame (t : ColorTracker) (names : List String) : Option ColorTracker :=
  finish_frame (names.foldl get_color t)

/-- A whole sequence of allocation frames; an error in any frame aborts. -/
def runFrames (t : ColorTracker) : List (List String) → Option ColorTracker
  | [] => some t
  | ns :: rest =>
    match runFrame t ns with
    | none => none
    | some t2 => runFrames t2 rest

/-- Invariant of the allocator between frames (after a `finish_frame`). -/
def TrackerInv (pool : List ℕ) (t : ColorTracker) : Prop :=
  t.reserved_colors_this_frame = [] ∧
  t.data_points_awaiting_color = [] ∧
  (t.reserved_colors_last_frame.map Prod.fst).Nodup ∧
  (t.reserved_colors_last_frame.map Prod.snd ++ t.unreserved_colors).Perm pool

/-- Invariant of the allocator in the middle of a frame's `get_color` batch. -/
def MidInv (pool : List ℕ) (t : ColorTracker) : Prop :=
  (t.reserved_colors_last_frame.map Prod.fst).Nodup ∧
  (t.reserved_colors_this_frame.map Prod.fst ++ t.data_points_awaiting_color).Nodup ∧
  (t.reserved_colors_this_frame.map Prod.snd ++
    (t.reserved_colors_last_frame.map Prod.snd ++ t.unreserved_colors)).Perm pool

/-- One `c[name] += 1` step of the Python `Counter` of
gather_member_keyframes.py: bump the count in place when the name is known,
append it with count 1 otherwise (dicts keep insertion order). -/
def counterAdd : List (String × ℕ) → String → List (String × ℕ)
  | [], n => [(n, 1)]
  | (k, v) :: rest, n => if k = n then (k, v + 1) :: rest else (k, v) :: counterAdd rest n

/-- Descending-by-count order on counter items, oriented for a stable
descending sort as in `Counter.most_common`. -/
def pairRel (a b : String × ℕ) : Prop := b.2 ≤ a.2

instance : DecidableRel pairRel := fun a b => inferInstanceAs (Decidable (b.2 ≤ a.2))

/-- `c.most_common(n)`: the counter's items sorted by count descending,
ties keeping first-encountered order, truncated to `n` items. -/
def mostCommon (n : ℕ) (c : List (String × ℕ)) : List (String × ℕ) :=
  (c.insertionSort pairRel).take n

/-- `tracked_users.add(name)` on the Python set, embedded as a duplicate-free
list. -/
def setInsert (s : List String) (n : String) : List String :=
  if n ∈ s then s else s ++ [n]

/-- The tally loop of `bar_fetch` (lines 36-60): per captured day, add the
day's messages to the cumulative counter, admit the current
`most_common(top_users)` names to `tracked_users`, and record
`(date, c.copy())`.  Returns the final counter, the final watch-list and
the recorded snapshots. -/
def runDays (tu : ℕ) (c : List (String × ℕ)) (tracked : List String) :
    List (String × List String) →
      List (String × ℕ) × List String × List (String × List (String × ℕ))
  | [] => (c, tracked, [])
  | (label, msgs) :: rest =>
    let c2 := msgs.foldl counterAdd c
    let tracked2 := ((mostCommon tu c2).map Prod.fst).foldl setInsert tracked
    let r := runDays tu c2 tracked2 rest
    (r.1, r.2.1, (label, c2) :: r.2.2)

/-- Lexicographic byte-order comparison of strings, the order Python's
`sorted` uses on `str`. -/
def charsLe : List Char → List Char → Bool
  | [], _ => true
  | _ :: _, [] => false
  | a :: as, b :: bs =>
    if a.val < b.val then true
    else if b.val < a.val then false
    else charsLe as bs

/-- `sorted(list(tracked_users))` (line 63). -/
def strSort (l : List String) : List String :=
  l.insertionSort (fun a b => charsLe a.data b.data = true)

/-- The whole tally run of `bar_fetch`: the counter starts with the
channel's first message already counted (lines 31-33). -/
def gatherRun (firstAuthor : String) (tu : ℕ) (days : List (String × List String)) :
    List (String × ℕ) × List String × List (String × List (String × ℕ)) :=
  runDays tu (counterAdd [] firstAuthor) [] days

/-- The final watch-list of a `bar_fetch` run. -/
def gatherTracked (firstAuthor : String) (tu : ℕ) (days : List (String × List String)) :
    List String :=
  (gatherRun firstAuthor tu days).2.1

/-- The recorded `(date, counter)` snapshots of a `bar_fetch` run. -/
def gatherSnapshots (firstAuthor : String) (tu : ℕ) (days : List (String × List String)) :
    List (String × List (String × ℕ)) :=
  (gatherRun firstAuthor tu days).2.2

/-- The CSV header's name columns: the watch-list, sorted. -/
def gatherHeader (firstAuthor : String) (tu : ℕ) (days : List (String × List String)) :
    List String :=
  strSort (gatherTracked firstAuthor tu days)

/-- `counter[user] if user in counter else 0` (lines 70-74). -/
def counterGetD (c : List (String × ℕ)) (n : String) : ℕ :=
  (dlookup c n).getD 0

/-- One CSV data row paired with the header columns: for each tracked user,
its count in this snapshot, 0 when absent. -/
def emitRow (hdr : List String) (c : List (String × ℕ)) : List (String × ℕ) :=
  hdr.map (fun u => (u, counterGetD c u))

/-- The keyframes `bar_fetch` persists: one row per snapshot, each row
carrying every tracked user with its count at that snapshot. -/
def gatherKeyframes (firstAuthor : String) (tu : ℕ) (days : List (String × List String)) :
    List (String × List (String × ℕ)) :=
  (gatherSnapshots firstAuthor tu days).map
    (fun p => (p.1, emitRow (gatherHeader firstAuthor tu days) p.2))

/-- Splitting a line at commas, the semantics of Python's `split(",")`
(empty fields preserved, one field for the empty string). -/
def splitOnComma : List Char → List (List Char)
  | [] => [[]]
  | c :: rest =>
    if c = ',' then [] :: splitOnComma rest
    else
      match splitOnComma rest with
      | [] => [[c]]
      | g :: gs => (c :: g) :: gs

/-- `line.split(",")` on a string. -/
def pySplit (s : String) : List String := (splitOnComma s.data).map String.mk

/-- Stripping leading and trailing whitespace, as Python's `int` does
before parsing. -/
def pyStrip (s : List Char) : List Char :=
  ((s.dropWhile Char.isWhitespace).reverse.dropWhile Char.isWhitespace).reverse

/-- The value of a nonempty all-digit character run, `none` on any
non-digit. -/
def digitsVal : List Char → Option ℕ
  | [] => some 0
  | c :: cs =>
    if c.isDigit then
      match digitsVal cs with
      | some v => some ((c.toNat - '0'.toNat) * 10 ^ cs.length + v)
      | none => none
    else none

/-- Python's `int(s)` on a string: optional sign then digits, surrounding
whitespace allowed; `ValueError` is embedded as `none`. -/
def pyInt (s : String) : Option ℤ :=
  match pyStrip s.data with
  | [] => none
  | '-' :: rest =>
    if rest = [] then none else (digitsVal rest).map (fun v => -(v : ℤ))
  | '+' :: rest =>
    if rest = [] then none else (digitsVal rest).map (fun v => (v : ℤ))
  | l => (digitsVal l).map (fun v => (v : ℤ))

/-- `",".join(names)`. -/
def joinComma : List String → String
  | [] => ""
  | [x] => x
  | x :: rest => x ++ "," ++ joinComma rest

/-- The first line `bar_fetch` writes (line 66):
`f.write(f"date,{name_list}\n")` with `name_list = ",".join(tracked_users)`. -/
def writerHeader (tracked : List String) : String :=
  "date," ++ joinComma tracked ++ "\n"

/-- The metadata parse of barplot.py lines 183-185:
`file_metadata = data_file.readline().split(",")`, then
`int(file_metadata[0])` and `int(file_metadata[1])`; a missing field
(`IndexError`) or an unparsable integer (`ValueError`) is an error. -/
def readMetadataLine (line : String) : Option (ℤ × ℤ) :=
  match pySplit line with
  | f0 :: f1 :: _ =>
    match pyInt f0, pyInt f1 with
    | some a, some b => some (a, b)
    | _, _ => none
  | _ => none

theorem findByName_some_name {l : List Keyframe} {n : String} {kf : Keyframe}
    (h : findByName l n = some kf) : kf.name = n := by
  have := List.find?_some h
  simpa using this

theorem mem_of_findByName {l : List Keyframe} {n : String} {kf : Keyframe}
    (h : findByName l n = some kf) : kf ∈ l :=
  List.mem_of_find?_eq_some h

theorem findByName_eq_none {l : List Keyframe} {n : String} :
    findByName l n = none ↔ ∀ kf ∈ l, kf.name ≠ n := by
  unfold findByName
  rw [List.find?_eq_none]
  simp

theorem findByName_of_mem_nodup {l : List Keyframe} {kf : Keyframe}
    (hnd : (l.map Keyframe.name).Nodup) (hm : kf ∈ l) :
    findByName l kf.name = some kf := by
  induction l with
  | nil => cases hm
  | cons h rest ih =>
    rcases List.mem_cons.mp hm with rfl | hm2
    · unfold findByName
      rw [List.find?_cons_of_pos]
      simp
    · have hne : h.name ≠ kf.name := by
        intro he
        have : kf.name ∈ rest.map Keyframe.name := List.mem_map_of_mem _ hm2
        rw [List.map_cons, List.nodup_cons] at hnd
        exact hnd.1 (he ▸ this)
      unfold findByName
      rw [List.find?_cons_of_neg]
      · exact ih (by rw [List.map_cons, List.nodup_cons] at hnd; exact hnd.2) hm2
      · simpa using hne

theorem findByName_cons_self {h : Keyframe} {rest : List Keyframe} {n : String}
    (hn : h.name = n) : findByName (h :: rest) n = some h := by
  unfold findByName
  rw [List.find?_cons_of_pos _ (by simpa using hn)]

theorem findByName_cons_ne {h : Keyframe} {rest : List Keyframe} {n : String}
    (hn : h.name ≠ n) : findByName (h :: rest) n = findByName rest n := by
  unfold findByName
  rw [List.find?_cons_of_neg _ (by simpa using hn)]

theorem interpFrame_cons_none {h : Keyframe} {rest next : List Keyframe} {t : ℚ}
    (hfind : findByName next h.name = none) :
    interpFrame (h :: rest) next t = interpFrame rest next t := by
  unfold interpFrame
  rw [List.filterMap_cons]
  simp only [hfind]

theorem interpFrame_cons_some {h nkf : Keyframe} {rest next : List Keyframe} {t : ℚ}
    (hfind : findByName next h.name = some nkf) :
    interpFrame (h :: rest) next t =
      ⟨h.name, lerp h.count nkf.count t, h.y_position, h.color⟩ :: interpFrame rest next t := by
  unfold interpFrame
  rw [List.filterMap_cons]
  simp only [hfind]

theorem mem_interpFrame {prev next : List Keyframe} {t : ℚ} {kf' : Keyframe}
    (h : kf' ∈ interpFrame prev next t) :
    kf'.name ∈ prev.map Keyframe.name ∧ kf'.name ∈ next.map Keyframe.name := by
  induction prev with
  | nil => cases h
  | cons hd rest ih =>
    rcases hfind : findByName next hd.name with _ | nkf
    · rw [interpFrame_cons_none hfind] at h
      have := ih h
      exact ⟨List.mem_cons_of_mem _ this.1, this.2⟩
    · rw [interpFrame_cons_some hfind] at h
      rcases List.mem_cons.mp h with rfl | h2
      · refine ⟨List.mem_cons_self _ _, ?_⟩
        rw [show (⟨hd.name, lerp hd.count nkf.count t, hd.y_position, hd.color⟩ :
            Keyframe).name = hd.name from rfl, ← findByName_some_name hfind]
        exact List.mem_map_of_mem _ (mem_of_findByName hfind)
      · have := ih h2
        exact ⟨List.mem_cons_of_mem _ this.1, this.2⟩

theorem interpFrame_find_some {prev : List Keyframe} :
    ∀ {next : List Keyframe} {t : ℚ} {n : String} {kp kn : Keyframe},
    (prev.map Keyframe.name).Nodup → findByName prev n = some kp →
    findByName next n = some kn →
    findByName (interpFrame prev next t) n =
      some ⟨n, lerp kp.count kn.count t, kp.y_position, kp.color⟩ := by
  induction prev with
  | nil => intro next t n kp kn _ hp; cases hp
  | cons h rest ih =>
    intro next t n kp kn hnd hp hq
    rw [List.map_cons, List.nodup_cons] at hnd
    by_cases hn : h.name = n
    · have hkp : kp = h := by
        rw [findByName_cons_self hn] at hp
        exact (Option.some_injective _ hp).symm
      rw [hkp, ← hn]
      rw [interpFrame_cons_some (hn ▸ hq)]
      exact findByName_cons_self rfl
    · have hp2 : findByName rest n = some kp := by
        rwa [findByName_cons_ne hn] at hp
      have tail := @ih next t n kp kn hnd.2 hp2 hq
      rcases hfind : findByName next h.name with _ | nkf
      · rw [interpFrame_cons_none hfind]
        exact tail
      · rw [interpFrame_cons_some hfind]
        rw [findByName_cons_ne (by simpa using hn)]
        exact tail

theorem interpFrame_find_none_left {prev next : List Keyframe} {t : ℚ} {n : String}
    (h : findByName prev n = none) : findByName (interpFrame prev next t) n = none := by
  unfold findByName at h ⊢
  rw [List.find?_eq_none] at h ⊢
  intro kf' hm
  have hmem := (mem_interpFrame hm).1
  rcases List.mem_map.mp hmem with ⟨kf, hkf, he⟩
  have := h kf hkf
  simp only [decide_eq_true_eq] at this ⊢
  rw [← he]
  exact this

theorem interpFrame_find_none_right {prev next : List Keyframe} {t : ℚ} {n : String}
    (h : findByName next n = none) : findByName (interpFrame prev next t) n = none := by
  unfold findByName at h ⊢
  rw [List.find?_eq_none] at h ⊢
  intro kf' hm
  have hmem := (mem_interpFrame hm).2
  rcases List.mem_map.mp hmem with ⟨kf, hkf, he⟩
  have := h kf hkf
  simp only [decide_eq_true_eq] at this ⊢
  rw [← he]
  exact this

theorem filterMap_some_id {α : Type} {f : α → Option α} :
    ∀ {l : List α}, (∀ a ∈ l, f a = some a) → l.filterMap f = l := by
  intro l
  induction l with
  | nil => intro _; rfl
  | cons h rest ih =>
    intro hall
    rw [List.filterMap_cons, hall h (List.mem_cons_self h rest),
      ih (fun a ha => hall a (List.mem_cons_of_mem h ha))]

theorem interpFrame_self {K : List Keyframe} {t : ℚ}
    (hnd : (K.map Keyframe.name).Nodup) : interpFrame K K t = K := by
  unfold interpFrame
  apply filterMap_some_id
  intro kf hkf
  rw [findByName_of_mem_nodup hnd hkf]
  show some (⟨kf.name, lerp kf.count kf.count t, kf.y_position, kf.color⟩ : Keyframe) = some kf
  have hl : lerp kf.count kf.count t = kf.count := by
    unfold lerp; ring
  rw [hl]

theorem getD_map_range {α : Type} (f : ℕ → α) (d : α) {i n : ℕ} (hi : i < n) :
    ((List.range n).map f).getD i d = f i := by
  rw [List.getD_eq_get?, List.get?_map, List.get?_range hi]
  rfl

theorem getD_eq_get {α : Type} (l : List α) (d : α) {i : ℕ} (hi : i < l.length) :
    l.getD i d = l.get ⟨i, hi⟩ := by
  rw [List.getD_eq_get?, List.get?_eq_get hi]
  rfl

/-- Claim C1, counterexample: with keyframe `K0 = [("a", count 10)]`,
`K1 = []` and `t = 1/2`, the claim demands an entry for `"a"` of count
`lerp 10 0 (1/2) = 5` in the intermediate frame; the code's interpolation
loop `continue`s over entities missing from `K1`, so the frame is empty and
`"a"` has no entry at all. -/
theorem claim1_absent_entity_counterexample :
    interpFrame [⟨"a", 10, 0, 0⟩] [] (1/2) = [] ∧ lerp (10 : ℚ) 0 (1/2) = 5 := by
  constructor
  · rfl
  · unfold lerp; norm_num

/-- Claim C1, amended: for adjacent keyframes and `t ∈ [0,1)`, an entity
present in both keyframes receives count `count0 + (count1 - count0) * t`
in the interpolated frame; an entity missing from either keyframe has no
entry in the interpolated frame at all (it is not lerped toward 0 — the
loop skips it). -/
theorem claim1_interpolated_counts (prev next : List Keyframe) (t : ℚ) (n : String)
    (hnd : (prev.map Keyframe.name).Nodup) :
    (∀ kp kn : Keyframe, findByName prev n = some kp → findByName next n = some kn →
      findByName (interpFrame prev next t) n =
        some ⟨n, lerp kp.count kn.count t, kp.y_position, kp.color⟩)
    ∧ (findByName prev n = none → findByName (interpFrame prev next t) n = none)
    ∧ (findByName next n = none → findByName (interpFrame prev next t) n = none) :=
  ⟨fun _ _ hp hq => interpFrame_find_some hnd hp hq,
   fun h => interpFrame_find_none_left h,
   fun h => interpFrame_find_none_right h⟩

theorem claim1_interpolated_counts_witness :
    ((([⟨"a", 2, 3, 7⟩] : List Keyframe).map Keyframe.name).Nodup) ∧
    findByName (interpFrame [⟨"a", 2, 3, 7⟩] [⟨"a", 4, 1, 9⟩] (1/2)) "a" =
      some ⟨"a", lerp 2 4 (1/2), 3, 7⟩ :=
  ⟨by decide,
   (claim1_interpolated_counts [⟨"a", 2, 3, 7⟩] [⟨"a", 4, 1, 9⟩] (1/2) "a" (by decide)).1
     ⟨"a", 2, 3, 7⟩ ⟨"a", 4, 1, 9⟩ (by decide) (by decide)⟩

/-- Claim C2, counterexample: with an entity at position 0 in `K0` and
position 1 in `K1`, at `t = 1/2` the claim demands the eased position
`slerp 0 1 (1/2) = sin 45° ≠ 0`, strictly between the endpoints; the code
assigns the previous keyframe's position verbatim (the `slerp` call on
line 242 of barplot.py is commented out), so the position is 0. -/
theorem claim2_eased_position_counterexample :
    findByName (interpFrame [⟨"a", 0, 0, 0⟩] [⟨"a", 0, 1, 0⟩] (1/2)) "a" =
      some ⟨"a", 0, 0, 0⟩ ∧ slerp 0 1 (1/2) ≠ 0 := by
  constructor
  · rw [interpFrame_cons_some
      (by decide : findByName [⟨"a", 0, 1, 0⟩] "a" = some ⟨"a", 0, 1, 0⟩)]
    show findByName [⟨"a", lerp 0 0 (1/2), 0, 0⟩] "a" = some ⟨"a", 0, 0, 0⟩
    have h0 : lerp (0 : ℚ) 0 (1/2) = 0 := by unfold lerp; norm_num
    rw [h0]
    decide
  · unfold slerp lerp
    have h : ((1/2 : ℝ) * 90) * (Real.pi / 180) = Real.pi / 4 := by ring
    rw [h, Real.sin_pi_div_four]
    have h2 : (0 : ℝ) < Real.sqrt 2 / 2 := by positivity
    intro hc
    rw [zero_add, sub_zero, one_mul] at hc
    exact absurd hc (ne_of_gt h2)

/-- Claim C2, amended: for every entity present in both keyframes, the
interpolated frame's vertical position is the previous keyframe's position
unchanged, for every `t`; the quarter-sine ease (`slerp`) exists in the
source but is not applied to positions. -/
theorem claim2_position_amended (prev next : List Keyframe) (t : ℚ) (n : String)
    (kp kn : Keyframe) (hnd : (prev.map Keyframe.name).Nodup)
    (hp : findByName prev n = some kp) (hq : findByName next n = some kn) :
    ∀ kf, findByName (interpFrame prev next t) n = some kf →
      kf.y_position = kp.y_position := by
  intro kf hkf
  rw [interpFrame_find_some hnd hp hq] at hkf
  have h2 := Option.some_injective _ hkf
  rw [← h2]

theorem claim2_position_amended_witness :
    ((([⟨"a", 2, 5, 7⟩] : List Keyframe).map Keyframe.name).Nodup) ∧
    (⟨"a", lerp 2 4 (1/2), 5, 7⟩ : Keyframe).y_position = 5 :=
  ⟨by decide,
   claim2_position_amended [⟨"a", 2, 5, 7⟩] [⟨"a", 4, 1, 9⟩] (1/2) "a"
     (⟨"a", 2, 5, 7⟩ : Keyframe) (⟨"a", 4, 1, 9⟩ : Keyframe) (by decide) (by decide) (by decide)
     (⟨"a", lerp 2 4 (1/2), 5, 7⟩ : Keyframe)
     (@interpFrame_find_some [⟨"a", 2, 5, 7⟩] [⟨"a", 4, 1, 9⟩] (1/2) "a"
       ⟨"a", 2, 5, 7⟩ ⟨"a", 4, 1, 9⟩ (by decide) (by decide) (by decide))⟩

/-- Claim C10: `lerp a b 0 = a` and `lerp a a t = a`, and consequently a
frame interpolated between one keyframe and itself (the sequencer's
end-of-sequence clamp) reproduces that keyframe's counts exactly — the
repeated hold frames cannot drift. -/
theorem claim10_lerp_hold :
    (∀ a b : ℚ, lerp a b 0 = a) ∧ (∀ a t : ℚ, lerp a a t = a) ∧
    (∀ (K : List Keyframe) (t : ℚ), (K.map Keyframe.name).Nodup →
      (interpFrame K K t).map Keyframe.count = K.map Keyframe.count) := by
  refine ⟨fun a b => by unfold lerp; ring, fun a t => by unfold lerp; ring, ?_⟩
  intro K t hnd
  rw [interpFrame_self hnd]

theorem claim10_lerp_hold_witness :
    ((([⟨"a", 1, 0, 2⟩] : List Keyframe).map Keyframe.name).Nodup) ∧
    (interpFrame [⟨"a", 1, 0, 2⟩] [⟨"a", 1, 0, 2⟩] (1/3)).map Keyframe.count =
      ([⟨"a", 1, 0, 2⟩] : List Keyframe).map Keyframe.count :=
  ⟨by decide, claim10_lerp_hold.2.2 [⟨"a", 1, 0, 2⟩] (1/3) (by decide)⟩

/-- Claim C7: for `n ≥ 1` keyframes and `frames_per_interval ≥ 1` the
sequencer emits exactly `n * fpk` dense frames; dense frame `i` interpolates
keyframes `i / fpk` and `i / fpk + 1` (clamped to `i / fpk` at the end) at
fraction `(i % fpk) / fpk`; and every frame of the final (clamped) interval
equals the last keyframe. -/
theorem claim7_sequencer (keyed : List (List Keyframe)) (fpk : ℕ)
    (hf : 1 ≤ fpk) (hk : keyed ≠ [])
    (hnd : ((keyed.getLast hk).map Keyframe.name).Nodup) :
    (mkFrames keyed fpk).length = keyed.length * fpk
    ∧ (∀ i, i < keyed.length * fpk →
        (mkFrames keyed fpk).getD i [] =
          interpFrame (keyed.getD (i / fpk) [])
            (if i / fpk + 1 < keyed.length then keyed.getD (i / fpk + 1) []
              else keyed.getD (i / fpk) [])
            ((i % fpk : ℚ) / (fpk : ℚ)))
    ∧ (∀ i, i < keyed.length * fpk → keyed.length ≤ i / fpk + 1 →
        (mkFrames keyed fpk).getD i [] = keyed.getLast hk) := by
  have hlen : (mkFrames keyed fpk).length = keyed.length * fpk := by
    unfold mkFrames
    rw [List.length_map, List.length_range]
  refine ⟨hlen, ?_, ?_⟩
  · intro i hi
    unfold mkFrames
    exact getD_map_range _ _ hi
  · intro i hi hcl
    have hfpos : 0 < fpk := hf
    have hidiv : i / fpk < keyed.length := by
      rw [Nat.div_lt_iff_lt_mul hfpos]
      exact hi
    have hiffalse : ¬ (i / fpk + 1 < keyed.length) := not_lt.mpr hcl
    unfold mkFrames
    rw [getD_map_range _ _ hi, if_neg hiffalse]
    have hgetlast : keyed.getD (i / fpk) [] = keyed.getLast hk := by
      have hlast : i / fpk = keyed.length - 1 := by
        generalize hgen : i / fpk = d at hidiv hcl
        omega
      rw [getD_eq_get keyed [] hidiv, List.getLast_eq_get]
      congr 1
      exact Fin.ext hlast
    rw [hgetlast]
    exact interpFrame_self hnd

theorem claim7_sequencer_witness :
    ((1 : ℕ) ≤ 1) ∧ (([[⟨"a", 1, 0, 2⟩]] : List (List Keyframe)) ≠ []) ∧
    (mkFrames [[⟨"a", 1, 0, 2⟩]] 1).getD 0 [] = [⟨"a", 1, 0, 2⟩] :=
  ⟨le_refl 1, by decide,
   (claim7_sequencer [[⟨"a", 1, 0, 2⟩]] 1 (le_refl 1) (by decide) (by decide)).2.2 0
     (by norm_num) (by norm_num)⟩

theorem sortKeyframes_perm (l : List Keyframe) : (sortKeyframes l).Perm l :=
  List.perm_insertionSort kfRel l

theorem sortKeyframes_sorted (l : List Keyframe) : (sortKeyframes l).Sorted kfRel :=
  List.sorted_insertionSort kfRel l

theorem sortKeyframes_length (l : List Keyframe) : (sortKeyframes l).length = l.length :=
  (sortKeyframes_perm l).length_eq

theorem rankKeyframes_length (l : List Keyframe) :
    (rankKeyframes l).length = (sortKeyframes l).length := by
  unfold rankKeyframes
  rw [List.length_map, List.enum_length]

theorem rankKeyframes_get (l : List Keyframe) (i : ℕ) (hi : i < (sortKeyframes l).length)
    (hi2 : i < (rankKeyframes l).length) :
    (rankKeyframes l).get ⟨i, hi2⟩ =
      { (sortKeyframes l).get ⟨i, hi⟩ with y_position := (i : ℚ) } := by
  unfold rankKeyframes at hi2 ⊢
  rw [List.get_map, List.get_enum]
  rfl

theorem mem_rankKeyframes {l : List Keyframe} {a : Keyframe} (h : a ∈ rankKeyframes l) :
    ∃ (i : ℕ) (hi : i < (sortKeyframes l).length),
      a = { (sortKeyframes l).get ⟨i, hi⟩ with y_position := (i : ℚ) } := by
  rcases List.mem_iff_get.mp h with ⟨j, hj⟩
  have hjlt : j.1 < (sortKeyframes l).length := by
    have h2 := j.2
    have h3 := rankKeyframes_length l
    omega
  refine ⟨j.1, hjlt, ?_⟩
  rw [← hj]
  exact rankKeyframes_get l j.1 hjlt j.2

theorem rankKeyframes_positions (l : List Keyframe) :
    (rankKeyframes l).map Keyframe.y_position
      = (List.range l.length).map (fun n : ℕ => (n : ℚ)) := by
  unfold rankKeyframes
  rw [List.map_map]
  have h1 : (Keyframe.y_position ∘ fun p : ℕ × Keyframe => { p.2 with y_position := (p.1 : ℚ) })
      = (fun n : ℕ => (n : ℚ)) ∘ Prod.fst := rfl
  rw [h1, ← List.map_map, List.enum_map_fst, sortKeyframes_length]

theorem keyframe_name_get_inj {s : List Keyframe} (hnd : (s.map Keyframe.name).Nodup)
    {i j : ℕ} (hi : i < s.length) (hj : j < s.length)
    (he : (s.get ⟨i, hi⟩).name = (s.get ⟨j, hj⟩).name) : i = j := by
  have hi2 : i < (s.map Keyframe.name).length := by rw [List.length_map]; exact hi
  have hj2 : j < (s.map Keyframe.name).length := by rw [List.length_map]; exact hj
  have h1 : (s.map Keyframe.name).get ⟨i, hi2⟩ = (s.get ⟨i, hi⟩).name := by
    rw [List.get_map]
  have h2 : (s.map Keyframe.name).get ⟨j, hj2⟩ = (s.get ⟨j, hj⟩).name := by
    rw [List.get_map]
  have h3 : (⟨i, hi2⟩ : Fin (s.map Keyframe.name).length) = ⟨j, hj2⟩ :=
    hnd.get_inj_iff.mp (by rw [h1, h2, he])
  exact congrArg Fin.val h3

theorem pair_sublist_get {α : Type} {x y : α} :
    ∀ {s : List α}, List.Sublist [x, y] s →
      ∃ (i j : ℕ) (hi : i < s.length) (hj : j < s.length),
        i < j ∧ s.get ⟨i, hi⟩ = x ∧ s.get ⟨j, hj⟩ = y := by
  intro s
  induction s with
  | nil => intro h; cases h
  | cons z s ih =>
    intro h
    cases h with
    | cons _ h2 =>
      rcases ih h2 with ⟨i, j, hi, hj, hij, hx, hy⟩
      exact ⟨i + 1, j + 1, Nat.succ_lt_succ hi, Nat.succ_lt_succ hj,
        Nat.succ_lt_succ hij, hx, hy⟩
    | cons₂ _ h2 =>
      have hy2 : y ∈ s := List.singleton_sublist.mp h2
      rcases List.mem_iff_get.mp hy2 with ⟨jy, hjy⟩
      exact ⟨0, jy.1 + 1, Nat.succ_pos _, Nat.succ_lt_succ jy.2, Nat.succ_pos _, rfl, hjy⟩

/-- Claim C3: the ranking step assigns the positions `0..n-1` exactly (as the
list of `y_position` values of the ranked entries); position 0 goes to a
maximal count; a strictly greater count always receives a strictly smaller
position; and two entries of equal count are ordered as they appear in the
input list (Python's sort is stable).  The assignment is a function of the
input list, hence deterministic. -/
theorem claim3_ranking (l : List Keyframe) (hnd : (l.map Keyframe.name).Nodup) :
    ((rankKeyframes l).map Keyframe.y_position
        = (List.range l.length).map (fun n : ℕ => (n : ℚ)))
    ∧ (∀ a ∈ rankKeyframes l, a.y_position = 0 → ∀ b ∈ l, b.count ≤ a.count)
    ∧ (∀ a ∈ rankKeyframes l, ∀ b ∈ rankKeyframes l, b.count < a.count →
        a.y_position < b.y_position)
    ∧ (∀ x y : Keyframe, List.Sublist [x, y] l → x.count = y.count →
        ∀ a ∈ rankKeyframes l, ∀ b ∈ rankKeyframes l,
          a.name = x.name → b.name = y.name → a.y_position < b.y_position) := by
  have hperm := sortKeyframes_perm l
  have hsorted := sortKeyframes_sorted l
  have hsnd : ((sortKeyframes l).map Keyframe.name).Nodup :=
    ((hperm.map Keyframe.name).nodup_iff).mpr hnd
  refine ⟨rankKeyframes_positions l, ?_, ?_, ?_⟩
  · intro a ha h0 b hb
    rcases mem_rankKeyframes ha with ⟨i, hi, hea⟩
    have hya : a.y_position = (i : ℚ) := by rw [hea]
    have hi0 : i = 0 := by
      have hc : ((i : ℚ)) = 0 := by rw [← hya, h0]
      exact_mod_cast hc
    subst hi0
    have hca : a.count = ((sortKeyframes l).get ⟨0, hi⟩).count := by rw [hea]
    have hbs : b ∈ sortKeyframes l := hperm.mem_iff.mpr hb
    rcases List.mem_iff_get.mp hbs with ⟨j, hbj⟩
    by_cases hj0 : j.1 = 0
    · have : j = ⟨0, hi⟩ := Fin.ext hj0
      rw [this] at hbj
      rw [← hbj, hca]
    · have hlt : (⟨0, hi⟩ : Fin (sortKeyframes l).length) < j := Nat.pos_of_ne_zero hj0
      have hrel := hsorted.rel_get_of_lt hlt
      unfold kfRel at hrel
      rw [hbj] at hrel
      rw [hca]
      exact hrel
  · intro a ha b hb hcnt
    rcases mem_rankKeyframes ha with ⟨i, hi, hea⟩
    rcases mem_rankKeyframes hb with ⟨j, hj, heb⟩
    have hya : a.y_position = (i : ℚ) := by rw [hea]
    have hyb : b.y_position = (j : ℚ) := by rw [heb]
    have hca : a.count = ((sortKeyframes l).get ⟨i, hi⟩).count := by rw [hea]
    have hcb : b.count = ((sortKeyframes l).get ⟨j, hj⟩).count := by rw [heb]
    rw [hya, hyb]
    have hij : i < j := by
      by_contra hc
      push_neg at hc
      rcases lt_or_eq_of_le hc with hlt | heq
      · have hrel := hsorted.rel_get_of_lt
          (show (⟨j, hj⟩ : Fin (sortKeyframes l).length) < ⟨i, hi⟩ from hlt)
        unfold kfRel at hrel
        rw [← hca, ← hcb] at hrel
        exact absurd hcnt (not_lt.mpr hrel)
      · subst heq
        have hcc : a.count = b.count := by rw [hca, hcb]
        rw [hcc] at hcnt
        exact lt_irrefl _ hcnt
    exact_mod_cast hij
  · intro x y hsub hcnt a ha b hb hax hby
    have hxy : kfRel x y := by unfold kfRel; rw [hcnt]
    have hsub2 : List.Sublist [x, y] (sortKeyframes l) :=
      List.pair_sublist_insertionSort hxy hsub
    rcases pair_sublist_get hsub2 with ⟨i, j, hi, hj, hij, hx, hy⟩
    rcases mem_rankKeyframes ha with ⟨ia, hia, hea⟩
    rcases mem_rankKeyframes hb with ⟨jb, hjb, heb⟩
    have hna : ((sortKeyframes l).get ⟨ia, hia⟩).name = ((sortKeyframes l).get ⟨i, hi⟩).name := by
      have h1 : a.name = ((sortKeyframes l).get ⟨ia, hia⟩).name := by rw [hea]
      rw [← h1, hax, ← hx]
    have hnb : ((sortKeyframes l).get ⟨jb, hjb⟩).name = ((sortKeyframes l).get ⟨j, hj⟩).name := by
      have h1 : b.name = ((sortKeyframes l).get ⟨jb, hjb⟩).name := by rw [heb]
      rw [← h1, hby, ← hy]
    have hiaeq : ia = i := keyframe_name_get_inj hsnd hia hi hna
    have hjbeq : jb = j := keyframe_name_get_inj hsnd hjb hj hnb
    have hya : a.y_position = (ia : ℚ) := by rw [hea]
    have hyb : b.y_position = (jb : ℚ) := by rw [heb]
    rw [hya, hyb, hiaeq, hjbeq]
    exact_mod_cast hij

theorem claim3_ranking_witness :
    ((([⟨"a", 1, 0, 0⟩, ⟨"b", 2, 0, 0⟩, ⟨"c", 1, 0, 0⟩] : List Keyframe).map
        Keyframe.name).Nodup) ∧
    (rankKeyframes [⟨"a", 1, 0, 0⟩, ⟨"b", 2, 0, 0⟩, ⟨"c", 1, 0, 0⟩]).map Keyframe.y_position
      = (List.range 3).map (fun n : ℕ => (n : ℚ)) :=
  ⟨by decide,
   (claim3_ranking [⟨"a", 1, 0, 0⟩, ⟨"b", 2, 0, 0⟩, ⟨"c", 1, 0, 0⟩] (by decide)).1⟩

theorem dlookup_dset_self : ∀ (d : List (String × ℕ)) (n : String) (c : ℕ),
    dlookup (dset d n c) n = some c := by
  intro d n c
  induction d with
  | nil => simp [dset, dlookup]
  | cons p rest ih =>
    rcases p with ⟨k, v⟩
    by_cases hk : k = n
    · simp [dset, dlookup, hk]
    · simp only [dset, dlookup, if_neg hk]
      exact ih

theorem dlookup_dset_ne : ∀ (d : List (String × ℕ)) (n m : String) (c : ℕ), m ≠ n →
    dlookup (dset d n c) m = dlookup d m := by
  intro d n m c hne
  induction d with
  | nil =>
    simp only [dset, dlookup]
    rw [if_neg (fun h : n = m => hne h.symm)]
  | cons p rest ih =>
    rcases p with ⟨k, v⟩
    by_cases hk : k = n
    · have hkm : ¬ k = m := by rw [hk]; exact fun h => hne h.symm
      simp only [dset, if_pos hk, dlookup, if_neg hkm]
    · by_cases hm : k = m
      · simp only [dset, if_neg hk, dlookup, if_pos hm]
      · simp only [dset, if_neg hk, dlookup, if_neg hm]
        exact ih

theorem dlookup_derase_ne : ∀ (d : List (String × ℕ)) (n m : String), m ≠ n →
    dlookup (derase d n) m = dlookup d m := by
  intro d n m hne
  induction d with
  | nil => simp [derase]
  | cons p rest ih =>
    rcases p with ⟨k, v⟩
    by_cases hk : k = n
    · have hkm : ¬ k = m := by rw [hk]; exact fun h => hne h.symm
      simp only [derase, if_pos hk, dlookup, if_neg hkm]
    · by_cases hm : k = m
      · simp only [derase, if_neg hk, dlookup, if_pos hm]
      · simp only [derase, if_neg hk, dlookup, if_neg hm]
        exact ih

theorem dlookup_eq_none_iff : ∀ (d : List (String × ℕ)) (n : String),
    dlookup d n = none ↔ n ∉ d.map Prod.fst := by
  intro d n
  induction d with
  | nil => simp [dlookup]
  | cons p rest ih =>
    rcases p with ⟨k, v⟩
    simp only [dlookup, List.map_cons, List.mem_cons]
    by_cases hk : k = n
    · rw [if_pos hk]
      simp [hk]
    · rw [if_neg hk, ih]
      constructor
      · intro h hc
        rcases hc with hc | hc
        · exact hk hc.symm
        · exact h hc
      · intro h hc
        exact h (Or.inr hc)

theorem dlookup_of_mem_keys : ∀ (d : List (String × ℕ)) (n : String),
    n ∈ d.map Prod.fst → ∃ c, dlookup d n = some c := by
  intro d n hm
  rcases hl : dlookup d n with _ | c
  · rw [dlookup_eq_none_iff] at hl
    exact absurd hm hl
  · exact ⟨c, rfl⟩

theorem dset_eq_append : ∀ (d : List (String × ℕ)) (n : String) (c : ℕ),
    n ∉ d.map Prod.fst → dset d n c = d ++ [(n, c)] := by
  intro d n c h
  induction d with
  | nil => rfl
  | cons p rest ih =>
    rcases p with ⟨k, v⟩
    simp only [List.map_cons, List.mem_cons] at h
    push_neg at h
    simp only [dset, if_neg (fun hc : k = n => h.1 hc.symm)]
    rw [ih h.2]
    rfl

theorem derase_snd_perm : ∀ (d : List (String × ℕ)) (n : String) (c : ℕ),
    dlookup d n = some c →
    (d.map Prod.snd).Perm (c :: (derase d n).map Prod.snd) := by
  intro d n c
  induction d with
  | nil => intro h; cases h
  | cons p rest ih =>
    intro h
    rcases p with ⟨k, v⟩
    simp only [dlookup] at h
    by_cases hk : k = n
    · rw [if_pos hk] at h
      have hv : v = c := Option.some_injective _ h
      simp only [derase, if_pos hk, List.map_cons, hv]
      exact List.Perm.refl _
    · rw [if_neg hk] at h
      simp only [derase, if_neg hk, List.map_cons]
      exact ((ih h).cons v).trans (List.Perm.swap c v _)

theorem derase_fst_sublist : ∀ (d : List (String × ℕ)) (n : String),
    List.Sublist ((derase d n).map Prod.fst) (d.map Prod.fst) := by
  intro d n
  induction d with
  | nil => simp [derase]
  | cons p rest ih =>
    rcases p with ⟨k, v⟩
    by_cases hk : k = n
    · simp only [derase, if_pos hk, List.map_cons]
      exact List.Sublist.cons k (List.Sublist.refl _)
    · simp only [derase, if_neg hk, List.map_cons]
      exact List.Sublist.cons₂ k ih

theorem get_color_found {t : ColorTracker} {n : String} {col : ℕ}
    (h : dlookup t.reserved_colors_last_frame n = some col) :
    get_color t n = { t with
      reserved_colors_last_frame := derase t.reserved_colors_last_frame n,
      reserved_colors_this_frame := dset t.reserved_colors_this_frame n col } := by
  unfold get_color
  rw [h]

theorem get_color_missing {t : ColorTracker} {n : String}
    (h : dlookup t.reserved_colors_last_frame n = none) :
    get_color t n = { t with
      data_points_awaiting_color := t.data_points_awaiting_color ++ [n] } := by
  unfold get_color
  rw [h]

theorem requests_keeps (name : String) (c : ℕ) :
    ∀ (ns : List String) (t : ColorTracker),
      (∀ n ∈ ns, n ≠ name) →
      dlookup t.reserved_colors_this_frame name = some c →
      name ∉ t.data_points_awaiting_color →
      dlookup ((ns.foldl get_color t).reserved_colors_this_frame) name = some c ∧
        name ∉ (ns.foldl get_color t).data_points_awaiting_color := by
  intro ns
  induction ns with
  | nil => intro t _ h1 h2; exact ⟨h1, h2⟩
  | cons n rest ih =>
    intro t hne h1 h2
    rw [List.foldl_cons]
    have hnn : n ≠ name := hne n (List.mem_cons_self n rest)
    rcases hl : dlookup t.reserved_colors_last_frame n with _ | col
    · rw [get_color_missing hl]
      apply ih
      · intro m hm; exact hne m (List.mem_cons_of_mem n hm)
      · exact h1
      · simp only [List.mem_append, List.mem_singleton]
        rintro (h | h)
        · exact h2 h
        · exact hnn h.symm
    · rw [get_color_found hl]
      apply ih
      · intro m hm; exact hne m (List.mem_cons_of_mem n hm)
      · show dlookup (dset t.reserved_colors_this_frame n col) name = some c
        rw [dlookup_dset_ne _ _ _ _ (Ne.symm hnn)]
        exact h1
      · exact h2

theorem requests_tracks (name : String) (c : ℕ) :
    ∀ (ns : List String) (t : ColorTracker),
      ns.Nodup → name ∈ ns →
      dlookup t.reserved_colors_last_frame name = some c →
      name ∉ t.data_points_awaiting_color →
      dlookup ((ns.foldl get_color t).reserved_colors_this_frame) name = some c ∧
        name ∉ (ns.foldl get_color t).data_points_awaiting_color := by
  intro ns
  induction ns with
  | nil => intro t _ hmem; cases hmem
  | cons n rest ih =>
    intro t hnd hmem hlast hawait
    rw [List.foldl_cons]
    rcases List.nodup_cons.mp hnd with ⟨hn1, hn2⟩
    by_cases hnn : n = name
    · subst hnn
      rw [get_color_found hlast]
      apply requests_keeps
      · intro m hm he
        exact hn1 (he ▸ hm)
      · exact dlookup_dset_self _ _ _
      · exact hawait
    · have hmem2 : name ∈ rest := by
        rcases List.mem_cons.mp hmem with he | h
        · exact absurd he.symm hnn
        · exact h
      rcases hl : dlookup t.reserved_colors_last_frame n with _ | col
      · rw [get_color_missing hl]
        apply ih _ hn2 hmem2
        · exact hlast
        · simp only [List.mem_append, List.mem_singleton]
          rintro (h | h)
          · exact hawait h
          · exact hnn h.symm
      · rw [get_color_found hl]
        apply ih _ hn2 hmem2
        · show dlookup (derase t.reserved_colors_last_frame n) name = some c
          rw [dlookup_derase_ne _ _ _ (fun he : name = n => hnn he.symm)]
          exact hlast
        · exact hawait

theorem assignAwaiting_keeps (name : String) (c : ℕ) :
    ∀ (ns : List String) (unres : List ℕ) (d : List (String × ℕ))
      (u2 : List ℕ) (d2 : List (String × ℕ)),
      (∀ n ∈ ns, n ≠ name) → dlookup d name = some c →
      assignAwaiting unres d ns = some (u2, d2) → dlookup d2 name = some c := by
  intro ns
  induction ns with
  | nil =>
    intro unres d u2 d2 _ hd h
    simp only [assignAwaiting] at h
    have h2 := Option.some_injective _ h
    have h3 : d = d2 := congrArg Prod.snd h2
    rw [← h3]
    exact hd
  | cons n rest ih =>
    intro unres d u2 d2 hne hd h
    cases unres with
    | nil => simp [assignAwaiting] at h
    | cons c2 cs =>
      simp only [assignAwaiting] at h
      apply ih cs (dset d n c2) u2 d2
      · intro m hm; exact hne m (List.mem_cons_of_mem n hm)
      · rw [dlookup_dset_ne _ _ _ _ (Ne.symm (hne n (List.mem_cons_self n rest)))]
        exact hd
      · exact h

theorem runFrame_some_fields {t t2 : ColorTracker} {ns : List String}
    (h : runFrame t ns = some t2) :
    t2.reserved_colors_this_frame = [] ∧ t2.data_points_awaiting_color = [] := by
  unfold runFrame finish_frame at h
  rcases hA : assignAwaiting ((ns.foldl get_color t).unreserved_colors ++
      (ns.foldl get_color t).reserved_colors_last_frame.map Prod.snd)
      (ns.foldl get_color t).reserved_colors_this_frame
      (ns.foldl get_color t).data_points_awaiting_color with _ | p
  · rw [hA] at h; cases h
  · rw [hA] at h
    rcases p with ⟨u2, d2⟩
    have h2 := Option.some_injective _ h
    rw [← h2]
    exact ⟨rfl, rfl⟩

/-- Claim C4: an entity that held a colour after one frame's `finish_frame`
and is requested again in the next frame (whose request batch has no
duplicate names) holds the same colour after the next frame's
`finish_frame`. -/
theorem claim4_color_stability (t0 t1 t2 : ColorTracker) (ns1 ns2 : List String)
    (name : String) (c : ℕ)
    (h1 : runFrame t0 ns1 = some t1)
    (hc : dlookup t1.reserved_colors_last_frame name = some c)
    (hmem : name ∈ ns2) (hnd : ns2.Nodup)
    (h2 : runFrame t1 ns2 = some t2) :
    dlookup t2.reserved_colors_last_frame name = some c := by
  obtain ⟨hthis, hawait⟩ := runFrame_some_fields h1
  obtain ⟨hthis2, hawait2⟩ := requests_tracks name c ns2 t1 hnd hmem hc
    (by rw [hawait]; exact List.not_mem_nil name)
  unfold runFrame finish_frame at h2
  rcases hA : assignAwaiting ((ns2.foldl get_color t1).unreserved_colors ++
      (ns2.foldl get_color t1).reserved_colors_last_frame.map Prod.snd)
      (ns2.foldl get_color t1).reserved_colors_this_frame
      (ns2.foldl get_color t1).data_points_awaiting_color with _ | p
  · rw [hA] at h2; cases h2
  · rw [hA] at h2
    rcases p with ⟨u2, d2⟩
    have he := Option.some_injective _ h2
    rw [← he]
    show dlookup d2 name = some c
    apply assignAwaiting_keeps name c
      ((ns2.foldl get_color t1).data_points_awaiting_color) _ _ u2 d2
    · intro m hm he2
      exact hawait2 (he2 ▸ hm)
    · exact hthis2
    · exact hA

theorem claim4_color_stability_witness :
    runFrame (mkColorTracker [10, 20, 30]) ["x"] =
        some ⟨[20, 30], [("x", 10)], [], []⟩ ∧
    dlookup ([("x", 10)] : List (String × ℕ)) "x" = some 10 ∧
    ("x" ∈ ["x", "y"]) ∧ (["x", "y"] : List String).Nodup ∧
    runFrame (⟨[20, 30], [("x", 10)], [], []⟩ : ColorTracker) ["x", "y"] =
        some ⟨[30], [("x", 10), ("y", 20)], [], []⟩ ∧
    dlookup ([("x", 10), ("y", 20)] : List (String × ℕ)) "x" = some 10 :=
  ⟨by decide, by decide, by decide, by decide, by decide,
   claim4_color_stability (mkColorTracker [10, 20, 30]) ⟨[20, 30], [("x", 10)], [], []⟩
     ⟨[30], [("x", 10), ("y", 20)], [], []⟩ ["x"] ["x", "y"] "x" 10
     (by decide) (by decide) (by decide) (by decide) (by decide)⟩

theorem assignAwaiting_none_iff :
    ∀ (ns : List String) (unres : List ℕ) (d : List (String × ℕ)),
      (assignAwaiting unres d ns = none ↔ unres.length < ns.length) := by
  intro ns
  induction ns with
  | nil =>
    intro unres d
    simp [assignAwaiting]
  | cons n rest ih =>
    intro unres d
    cases unres with
    | nil => simp [assignAwaiting]
    | cons c cs =>
      simp only [assignAwaiting, List.length_cons]
      rw [ih cs (dset d n c)]
      omega

theorem assignAwaiting_inv :
    ∀ (ns : List String) (unres : List ℕ) (d : List (String × ℕ))
      (u2 : List ℕ) (d2 : List (String × ℕ)),
      (d.map Prod.fst ++ ns).Nodup →
      assignAwaiting unres d ns = some (u2, d2) →
      d2.map Prod.fst = d.map Prod.fst ++ ns ∧
        (d2.map Prod.snd ++ u2).Perm (d.map Prod.snd ++ unres) := by
  intro ns
  induction ns with
  | nil =>
    intro unres d u2 d2 _ h
    simp only [assignAwaiting] at h
    have h2 := Option.some_injective _ h
    have hu : unres = u2 := congrArg Prod.fst h2
    have hd : d = d2 := congrArg Prod.snd h2
    subst hu
    subst hd
    exact ⟨(List.append_nil _).symm, List.Perm.refl _⟩
  | cons n rest ih =>
    intro unres d u2 d2 hnd h
    cases unres with
    | nil => simp [assignAwaiting] at h
    | cons c cs =>
      simp only [assignAwaiting] at h
      have hnotin : n ∉ d.map Prod.fst := by
        intro hmem
        exact List.disjoint_of_nodup_append hnd hmem (List.mem_cons_self n rest)
      have hset := dset_eq_append d n c hnotin
      have hnd2 : ((dset d n c).map Prod.fst ++ rest).Nodup := by
        rw [hset, List.map_append, List.append_assoc]
        exact hnd
      obtain ⟨hkeys, hperm⟩ := ih cs (dset d n c) u2 d2 hnd2 h
      constructor
      · rw [hkeys, hset, List.map_append, List.append_assoc]
        rfl
      · have hstep : (dset d n c).map Prod.snd ++ cs = d.map Prod.snd ++ (c :: cs) := by
          rw [hset, List.map_append, List.append_assoc]
          rfl
        rw [hstep] at hperm
        exact hperm

theorem requests_midinv (pool : List ℕ) :
    ∀ (ns : List String) (t : ColorTracker),
      ns.Nodup → MidInv pool t →
      (∀ n ∈ ns, n ∉ t.reserved_colors_this_frame.map Prod.fst ∧
        n ∉ t.data_points_awaiting_color) →
      MidInv pool (ns.foldl get_color t) := by
  intro ns
  induction ns with
  | nil => intro t _ hinv _; exact hinv
  | cons n rest ih =>
    intro t hnd hinv hfresh
    rw [List.foldl_cons]
    rcases List.nodup_cons.mp hnd with ⟨hn1, hn2⟩
    obtain ⟨hfn1, hfn2⟩ := hfresh n (List.mem_cons_self n rest)
    obtain ⟨hlk, htk, hpm⟩ := hinv
    rcases hl : dlookup t.reserved_colors_last_frame n with _ | col
    · rw [get_color_missing hl]
      apply ih _ hn2
      · refine ⟨hlk, ?_, hpm⟩
        have hperm2 : (t.reserved_colors_this_frame.map Prod.fst ++
            (t.data_points_awaiting_color ++ [n])).Perm
            (n :: (t.reserved_colors_this_frame.map Prod.fst ++
              t.data_points_awaiting_color)) := by
          rw [← List.append_assoc]
          exact List.perm_append_singleton n _
        rw [hperm2.nodup_iff]
        rw [List.nodup_cons]
        refine ⟨?_, htk⟩
        simp only [List.mem_append]
        rintro (h | h)
        · exact hfn1 h
        · exact hfn2 h
      · intro m hm
        obtain ⟨hm1, hm2⟩ := hfresh m (List.mem_cons_of_mem n hm)
        refine ⟨hm1, ?_⟩
        simp only [List.mem_append, List.mem_singleton]
        rintro (h | h)
        · exact hm2 h
        · exact hn1 (h ▸ hm)
    · rw [get_color_found hl]
      apply ih _ hn2
      · refine ⟨?_, ?_, ?_⟩
        · exact List.Nodup.sublist (derase_fst_sublist _ _) hlk
        · rw [dset_eq_append _ _ _ hfn1, List.map_append]
          have hperm2 : ((t.reserved_colors_this_frame.map Prod.fst ++
              ([(n, col)].map Prod.fst)) ++ t.data_points_awaiting_color).Perm
              (n :: (t.reserved_colors_this_frame.map Prod.fst ++
                t.data_points_awaiting_color)) := by
            rw [List.append_assoc]
            exact List.perm_middle
          rw [hperm2.nodup_iff, List.nodup_cons]
          refine ⟨?_, htk⟩
          simp only [List.mem_append]
          rintro (h | h)
          · exact hfn1 h
          · exact hfn2 h
        · rw [dset_eq_append _ _ _ hfn1, List.map_append]
          refine List.Perm.trans ?_ hpm
          rw [List.append_assoc]
          apply List.Perm.append_left
          exact ((derase_snd_perm _ _ _ hl).append_right
            t.unreserved_colors).symm
      · intro m hm
        obtain ⟨hm1, hm2⟩ := hfresh m (List.mem_cons_of_mem n hm)
        constructor
        · rw [dset_eq_append _ _ _ hfn1, List.map_append]
          simp only [List.map_cons, List.map_nil, List.mem_append, List.mem_singleton]
          rintro (h | h)
          · exact hm1 h
          · exact hn1 (h ▸ hm)
        · exact hm2

theorem finish_inv (pool : List ℕ) (t t2 : ColorTracker)
    (hinv : MidInv pool t) (h : finish_frame t = some t2) : TrackerInv pool t2 := by
  obtain ⟨hlk, htk, hpm⟩ := hinv
  unfold finish_frame at h
  rcases hA : assignAwaiting
      (t.unreserved_colors ++ t.reserved_colors_last_frame.map Prod.snd)
      t.reserved_colors_this_frame t.data_points_awaiting_color with _ | p
  · rw [hA] at h; cases h
  · rw [hA] at h
    rcases p with ⟨u2, d2⟩
    have he := Option.some_injective _ h
    obtain ⟨hkeys, hperm⟩ := assignAwaiting_inv t.data_points_awaiting_color
      (t.unreserved_colors ++ t.reserved_colors_last_frame.map Prod.snd)
      t.reserved_colors_this_frame u2 d2 htk hA
    rw [← he]
    refine ⟨rfl, rfl, ?_, ?_⟩
    · show (d2.map Prod.fst).Nodup
      rw [hkeys]
      exact htk
    · show (d2.map Prod.snd ++ u2).Perm pool
      refine hperm.trans ?_
      refine List.Perm.trans ?_ hpm
      apply List.Perm.append_left
      exact List.perm_append_comm

theorem runFrame_inv (pool : List ℕ) {t t2 : ColorTracker} {ns : List String}
    (hinv : TrackerInv pool t) (hnd : ns.Nodup) (h : runFrame t ns = some t2) :
    TrackerInv pool t2 := by
  obtain ⟨h1, h2, h3, h4⟩ := hinv
  have hmid0 : MidInv pool t := by
    refine ⟨h3, ?_, ?_⟩
    · rw [h1, h2]
      simp
    · rw [h1]
      exact h4
  have hmid := requests_midinv pool ns t hnd hmid0 (by
    intro n hn
    rw [h1, h2]
    simp)
  unfold runFrame at h
  exact finish_inv pool _ t2 hmid h

theorem runFrames_inv (pool : List ℕ) :
    ∀ (fs : List (List String)) (t t2 : ColorTracker),
      TrackerInv pool t → (∀ f ∈ fs, f.Nodup) →
      runFrames t fs = some t2 → TrackerInv pool t2 := by
  intro fs
  induction fs with
  | nil =>
    intro t t2 hinv _ h
    unfold runFrames at h
    rw [← Option.some_injective _ h]
    exact hinv
  | cons f rest ih =>
    intro t t2 hinv hfs h
    unfold runFrames at h
    rcases hr : runFrame t f with _ | t3
    · rw [hr] at h; cases h
    · rw [hr] at h
      exact ih t3 t2 (runFrame_inv pool hinv (hfs f (List.mem_cons_self f rest)) hr)
        (fun g hg => hfs g (List.mem_cons_of_mem f hg)) h

theorem mkColorTracker_inv (pool : List ℕ) : TrackerInv pool (mkColorTracker pool) :=
  ⟨rfl, rfl, List.nodup_nil, List.Perm.refl pool⟩

/-- Claim C5: with a duplicate-free colour pool and no name requested twice
in a frame, after every `finish_frame` the reservation dict carried to the
next frame and the unreserved list together hold exactly the pool:
`reserved.size + unreserved.size = pool.size`, and no colour is reserved by
two entries at once. -/
theorem claim5_color_conservation (pool : List ℕ) (fs : List (List String))
    (t : ColorTracker) (hpool : pool.Nodup) (hfs : ∀ f ∈ fs, f.Nodup)
    (h : runFrames (mkColorTracker pool) fs = some t) :
    t.reserved_colors_last_frame.length + t.unreserved_colors.length = pool.length ∧
    (t.reserved_colors_last_frame.map Prod.snd).Nodup := by
  obtain ⟨_, _, hk, hp⟩ := runFrames_inv pool fs (mkColorTracker pool) t
    (mkColorTracker_inv pool) hfs h
  constructor
  · have hlen := hp.length_eq
    rw [List.length_append, List.length_map] at hlen
    exact hlen
  · have hnodup := (hp.nodup_iff).mpr hpool
    exact hnodup.of_append_left

theorem claim5_color_conservation_witness :
    (([0, 1] : List ℕ).Nodup) ∧ (∀ f ∈ [["x"], ["y"]], List.Nodup f) ∧
    runFrames (mkColorTracker [0, 1]) [["x"], ["y"]] =
      some ⟨[0], [("y", 1)], [], []⟩ ∧
    (([("y", 1)] : List (String × ℕ)).length + ([0] : List ℕ).length =
        ([0, 1] : List ℕ).length ∧
      (([("y", 1)] : List (String × ℕ)).map Prod.snd).Nodup) :=
  ⟨by decide, by decide, by decide,
   claim5_color_conservation [0, 1] [["x"], ["y"]] ⟨[0], [("y", 1)], [], []⟩
     (by decide) (by decide) (by decide)⟩

/-- Claim C6: in any reachable frame, if more entries await a colour than
the unreserved colours available after reclaiming the previous frame's
unrequested reservations, `finish_frame` signals the error (returns `none`,
the `IndexError` of `unreserved_colors.pop(0)`); and whenever it completes,
every waiting entry has received a colour in the carried-over reservation
dict and no two reserved entries share a colour. -/
theorem claim6_pool_exhaustion (pool : List ℕ) (fs : List (List String))
    (t : ColorTracker) (ns : List String)
    (hpool : pool.Nodup) (hfs : ∀ f ∈ fs, f.Nodup)
    (ht : runFrames (mkColorTracker pool) fs = some t) (hns : ns.Nodup) :
    ((ns.foldl get_color t).unreserved_colors.length +
        (ns.foldl get_color t).reserved_colors_last_frame.length <
        (ns.foldl get_color t).data_points_awaiting_color.length →
      finish_frame (ns.foldl get_color t) = none)
    ∧ (∀ t2, finish_frame (ns.foldl get_color t) = some t2 →
        (∀ n ∈ (ns.foldl get_color t).data_points_awaiting_color,
          ∃ c, dlookup t2.reserved_colors_last_frame n = some c)
        ∧ (t2.reserved_colors_last_frame.map Prod.snd).Nodup) := by
  obtain ⟨h1, h2, h3, h4⟩ := runFrames_inv pool fs (mkColorTracker pool) t
    (mkColorTracker_inv pool) hfs ht
  have hmid0 : MidInv pool t := by
    refine ⟨h3, ?_, ?_⟩
    · rw [h1, h2]
      simp
    · rw [h1]
      exact h4
  obtain ⟨hlk, htk, hpm⟩ := requests_midinv pool ns t hns hmid0 (by
    intro n hn
    rw [h1, h2]
    simp)
  constructor
  · intro hlt
    unfold finish_frame
    have hnone : assignAwaiting
        ((ns.foldl get_color t).unreserved_colors ++
          (ns.foldl get_color t).reserved_colors_last_frame.map Prod.snd)
        (ns.foldl get_color t).reserved_colors_this_frame
        (ns.foldl get_color t).data_points_awaiting_color = none := by
      rw [assignAwaiting_none_iff, List.length_append, List.length_map]
      exact hlt
    rw [hnone]
  · intro t2 hfin
    unfold finish_frame at hfin
    rcases hA : assignAwaiting
        ((ns.foldl get_color t).unreserved_colors ++
          (ns.foldl get_color t).reserved_colors_last_frame.map Prod.snd)
        (ns.foldl get_color t).reserved_colors_this_frame
        (ns.foldl get_color t).data_points_awaiting_color with _ | p
    · rw [hA] at hfin; cases hfin
    · rw [hA] at hfin
      rcases p with ⟨u2, d2⟩
      have he := Option.some_injective _ hfin
      obtain ⟨hkeys, hperm⟩ := assignAwaiting_inv
        (ns.foldl get_color t).data_points_awaiting_color
        ((ns.foldl get_color t).unreserved_colors ++
          (ns.foldl get_color t).reserved_colors_last_frame.map Prod.snd)
        (ns.foldl get_color t).reserved_colors_this_frame u2 d2 htk hA
      rw [← he]
      constructor
      · intro n hn
        apply dlookup_of_mem_keys
        show n ∈ d2.map Prod.fst
        rw [hkeys]
        exact List.mem_append_right _ hn
      · show (d2.map Prod.snd).Nodup
        have hbig : (d2.map Prod.snd ++ u2).Perm pool := by
          refine hperm.trans ?_
          refine List.Perm.trans ?_ hpm
          apply List.Perm.append_left
          exact List.perm_append_comm
        exact ((hbig.nodup_iff).mpr hpool).of_append_left

theorem claim6_pool_exhaustion_witness :
    (([] : List ℕ).Nodup) ∧ ((["x"] : List String).Nodup) ∧
    runFrames (mkColorTracker []) [] = some (mkColorTracker []) ∧
    finish_frame (["x"].foldl get_color (mkColorTracker [])) = none :=
  ⟨by decide, by decide, by decide,
   (claim6_pool_exhaustion [] [] (mkColorTracker []) ["x"] (by decide)
     (by decide) (by decide) (by decide)).1 (by decide)⟩

theorem mem_setInsert_of_mem {s : List String} {x : String} (n : String) (h : x ∈ s) :
    x ∈ setInsert s n := by
  unfold setInsert
  by_cases hn : n ∈ s
  · rw [if_pos hn]; exact h
  · rw [if_neg hn]; exact List.mem_append_left _ h

theorem mem_setInsert_self (s : List String) (n : String) : n ∈ setInsert s n := by
  unfold setInsert
  by_cases hn : n ∈ s
  · rw [if_pos hn]; exact hn
  · rw [if_neg hn]
    exact List.mem_append_right _ (List.mem_singleton.mpr rfl)

theorem mem_foldl_setInsert_of_mem {x : String} :
    ∀ (l : List String) (s : List String), x ∈ s → x ∈ l.foldl setInsert s := by
  intro l
  induction l with
  | nil => intro s h; exact h
  | cons n rest ih =>
    intro s h
    rw [List.foldl_cons]
    exact ih _ (mem_setInsert_of_mem n h)

theorem mem_foldl_setInsert_of_mem_list {x : String} :
    ∀ (l : List String) (s : List String), x ∈ l → x ∈ l.foldl setInsert s := by
  intro l
  induction l with
  | nil => intro s h; cases h
  | cons n rest ih =>
    intro s h
    rw [List.foldl_cons]
    rcases List.mem_cons.mp h with rfl | h2
    · exact mem_foldl_setInsert_of_mem rest _ (mem_setInsert_self s x)
    · exact ih _ h2

theorem runDays_tracked_mono {x : String} (tu : ℕ) :
    ∀ (days : List (String × List String)) (c : List (String × ℕ)) (tracked : List String),
      x ∈ tracked → x ∈ (runDays tu c tracked days).2.1 := by
  intro days
  induction days with
  | nil => intro c tracked h; exact h
  | cons d rest ih =>
    intro c tracked h
    rcases d with ⟨label, msgs⟩
    simp only [runDays]
    exact ih _ _ (mem_foldl_setInsert_of_mem _ _ h)

theorem runDays_admitted (tu : ℕ) :
    ∀ (days : List (String × List String)) (c : List (String × ℕ)) (tracked : List String)
      (i : ℕ) (hi : i < (runDays tu c tracked days).2.2.length) (name : String),
      name ∈ (mostCommon tu ((runDays tu c tracked days).2.2.get ⟨i, hi⟩).2).map Prod.fst →
      name ∈ (runDays tu c tracked days).2.1 := by
  intro days
  induction days with
  | nil =>
    intro c tracked i hi
    simp [runDays] at hi
  | cons d rest ih =>
    intro c tracked i hi name hmem
    rcases d with ⟨label, msgs⟩
    simp only [runDays] at hi hmem ⊢
    cases i with
    | zero =>
      apply runDays_tracked_mono
      exact mem_foldl_setInsert_of_mem_list _ _ hmem
    | succ i2 =>
      exact ih _ _ i2 (Nat.lt_of_succ_lt_succ hi) name hmem

/-- Claim C8, counterexample: the acquisition script admits only the top
`top_users` (= `display_count`, 10) names of each snapshot to the
watch-list — there is no `buffer`.  With first author `"a"` (1 message) and
ten users sending 2 messages each on day 1, `"a"` ranks 11th, inside the
top `display_count + buffer = 15` of the snapshot, yet the emitted keyframe
for that snapshot contains no entry for `"a"` at all. -/
theorem claim8_watchlist_counterexample :
    ("a" ∈ (mostCommon 15 ((gatherSnapshots "a" 10
        [("d1", ["b", "b", "c", "c", "d", "d", "e", "e", "f", "f",
          "g", "g", "h", "h", "i", "i", "j", "j", "k", "k"])]).getD 0 ("", [])).2).map
        Prod.fst)
    ∧ (∀ p ∈ ((gatherKeyframes "a" 10
        [("d1", ["b", "b", "c", "c", "d", "d", "e", "e", "f", "f",
          "g", "g", "h", "h", "i", "i", "j", "j", "k", "k"])]).getD 0 ("", [])).2,
        p.1 ≠ "a") := by
  constructor
  · decide
  · decide

/-- Claim C8, amended: every entity among the top `top_users` (the script's
`display_count`; there is no buffer) of any snapshot with index `i ≤ j` is
included in the keyframe emitted for snapshot `j`, with its count taken
from snapshot `j` when present there and 0 when absent; once admitted it
appears in every keyframe (the CSV's columns are fixed), so it is never
removed later. -/
theorem claim8_watchlist_amended (fa : String) (tu : ℕ)
    (days : List (String × List String)) (i j : ℕ) (name : String)
    (hi : i < (gatherSnapshots fa tu days).length)
    (hj : j < (gatherSnapshots fa tu days).length)
    (hij : i ≤ j)
    (hadm : name ∈ (mostCommon tu
        ((gatherSnapshots fa tu days).get ⟨i, hi⟩).2).map Prod.fst) :
    ∃ hj2 : j < (gatherKeyframes fa tu days).length,
      (name, counterGetD ((gatherSnapshots fa tu days).get ⟨j, hj⟩).2 name)
        ∈ ((gatherKeyframes fa tu days).get ⟨j, hj2⟩).2 := by
  have htracked : name ∈ gatherTracked fa tu days :=
    runDays_admitted tu days _ [] i hi name hadm
  have hhdr : name ∈ gatherHeader fa tu days := by
    unfold gatherHeader strSort
    exact (List.perm_insertionSort _ _).mem_iff.mpr htracked
  have hj2 : j < (gatherKeyframes fa tu days).length := by
    unfold gatherKeyframes
    rw [List.length_map]
    exact hj
  refine ⟨hj2, ?_⟩
  have hget : (gatherKeyframes fa tu days).get ⟨j, hj2⟩ =
      (((gatherSnapshots fa tu days).get ⟨j, hj⟩).1,
        emitRow (gatherHeader fa tu days) ((gatherSnapshots fa tu days).get ⟨j, hj⟩).2) := by
    unfold gatherKeyframes
    rw [List.get_map]
  rw [hget]
  show (name, counterGetD ((gatherSnapshots fa tu days).get ⟨j, hj⟩).2 name)
      ∈ emitRow (gatherHeader fa tu days) ((gatherSnapshots fa tu days).get ⟨j, hj⟩).2
  unfold emitRow
  exact List.mem_map.mpr ⟨name, hhdr, rfl⟩

theorem claim8_watchlist_amended_witness :
    ((0 : ℕ) ≤ 0) ∧
    (∃ hj2 : 0 < (gatherKeyframes "a" 1 [("d", ["b"])]).length,
      ("a", counterGetD ((gatherSnapshots "a" 1 [("d", ["b"])]).get ⟨0, by decide⟩).2 "a")
        ∈ ((gatherKeyframes "a" 1 [("d", ["b"])]).get ⟨0, hj2⟩).2) :=
  ⟨le_refl 0,
   claim8_watchlist_amended "a" 1 [("d", ["b"])] 0 0 "a" (by decide) (by decide)
     (le_refl 0) (by decide)⟩

theorem splitOnComma_ne_nil : ∀ cs : List Char, splitOnComma cs ≠ [] := by
  intro cs
  induction cs with
  | nil => simp [splitOnComma]
  | cons c rest ih =>
    by_cases hc : c = ','
    · simp [splitOnComma, hc]
    · simp only [splitOnComma, if_neg hc]
      rcases h : splitOnComma rest with _ | ⟨g, gs⟩
      · exact (ih h).elim
      · simp

theorem splitOnComma_comma (cs : List Char) :
    splitOnComma (',' :: cs) = [] :: splitOnComma cs := by
  simp [splitOnComma]

theorem splitOnComma_prefix :
    ∀ (pre : List Char), (∀ c ∈ pre, c ≠ ',') → ∀ cs : List Char,
      splitOnComma (pre ++ ',' :: cs) = pre :: splitOnComma cs := by
  intro pre
  induction pre with
  | nil =>
    intro _ cs
    exact splitOnComma_comma cs
  | cons c rest ih =>
    intro hpre cs
    have hc : ¬ c = ',' := hpre c (List.mem_cons_self c rest)
    simp only [List.cons_append, splitOnComma, if_neg hc, List.append_eq]
    rw [ih (fun d hd => hpre d (List.mem_cons_of_mem c hd)) cs]

/-- Claim C9 (a code bug): the first line the acquisition script writes is
`date,<name>,<name>,...`, while the animation script's reader parses the
first line as two integers; `int("date")` raises `ValueError` for every
possible watch-list, so no stream the writer produces is readable by the
reader (the data rows likewise disagree: CSV counts versus JSON records). -/
theorem claim9_format_mismatch (tracked : List String) :
    readMetadataLine (writerHeader tracked) = none := by
  have hdata : (writerHeader tracked).data
      = ['d', 'a', 't', 'e'] ++ ',' :: (joinComma tracked ++ "\n").data := by
    unfold writerHeader
    rw [String.append_assoc, String.data_append]
    rfl
  have hsplit : splitOnComma (writerHeader tracked).data
      = ['d', 'a', 't', 'e'] :: splitOnComma (joinComma tracked ++ "\n").data := by
    rw [hdata]
    exact splitOnComma_prefix ['d', 'a', 't', 'e'] (by decide) _
  obtain ⟨g, gs, hg⟩ : ∃ g gs,
      splitOnComma (joinComma tracked ++ "\n").data = g :: gs := by
    rcases h : splitOnComma (joinComma tracked ++ "\n").data with _ | ⟨g, gs⟩
    · exact (splitOnComma_ne_nil _ h).elim
    · exact ⟨g, gs, rfl⟩
  have hfields : pySplit (writerHeader tracked)
      = "date" :: String.mk g :: gs.map String.mk := by
    unfold pySplit
    rw [hsplit, hg]
    rfl
  unfold readMetadataLine
  rw [hfields]
  show (match pyInt "date", pyInt (String.mk g) with
      | some a, some b => some (a, b)
      | _, _ => none) = none
  have hd : pyInt "date" = none := by decide
  rw [hd]
